import Mathlib

/-!
Verification of the terfer domain core: `Version`, `FileName`, `Instance`,
and `InstanceList` (sources: src/domain/src/version.rs, file_name.rs,
instance.rs).  Strings are modelled as `List Char`; Rust `u16` values are
modelled as `Nat` with arithmetic taken modulo 2^16 where the source does
unchecked `u16` addition.  The impure wall-clock read (`Zoned::now()`) is
modelled by passing the current timestamp explicitly.
-/

namespace Terfer

/-! ### Decimal digit strings (Rust integer formatting and parsing) -/

/-- Character for a decimal digit value, as Rust formatting produces. -/
def digitChar (d : Nat) : Char := Char.ofNat (48 + d)

/-- Fuel-based big-endian decimal rendering; `fuel ≥ n` guarantees completion. -/
def natCharsFuel : Nat → Nat → List Char
  | 0, _ => []
  | fuel + 1, n => if n = 0 then [] else natCharsFuel fuel (n / 10) ++ [digitChar (n % 10)]

/-- Decimal rendering of a natural number, as Rust `format!("{}")` produces. -/
def natChars (n : Nat) : List Char :=
  if n = 0 then ['0'] else natCharsFuel n n

/-- Numeric value of a big-endian decimal digit string. -/
def digitsVal (s : List Char) : Nat :=
  s.foldl (fun acc c => acc * 10 + (c.toNat - 48)) 0

/-- Model of Rust `u16::from_str`: an optional leading plus sign, then at
least one decimal digit, value at most 65535; anything else is a parse
error (`none`). -/
def parseU16 (s : List Char) : Option Nat :=
  let ds := if s.head? = some '+' then s.tail else s
  if ds ≠ [] ∧ ds.all Char.isDigit = true ∧ digitsVal ds ≤ 65535 then
    some (digitsVal ds)
  else none

/-- Model of Rust `str::split(sep).collect::<Vec<_>>()`: splits at every
occurrence of `sep`, keeping empty chunks, so the result always has one
more element than the number of separators. -/
def splitOnChar (sep : Char) : List Char → List (List Char)
  | [] => [[]]
  | c :: rest =>
    match splitOnChar sep rest with
    | [] => [[]]
    | h :: t => if c = sep then [] :: h :: t else (c :: h) :: t

/-! ### Version (src/domain/src/version.rs) -/

/-- Rust `Version { major: u16, minor: u16, patch: u16 }`. -/
structure Version where
  major : Nat
  minor : Nat
  patch : Nat
deriving DecidableEq, Repr

/-- The three components are `u16` values in the source. -/
abbrev Version.Valid (v : Version) : Prop :=
  v.major ≤ 65535 ∧ v.minor ≤ 65535 ∧ v.patch ≤ 65535

inductive VersionLevel
  | Major
  | Minor
  | Patch
deriving DecidableEq, Repr

/-- Rust `VersionError::InvalidVersionString(String)`.  The payload of the
`ParseIntError` conversion path is abstracted to the offending input. -/
inductive VersionError
  | InvalidVersionString (s : List Char)
deriving DecidableEq, Repr

/-- Rust `Version::from_string`: split on `.`; if that does not give three
fields, split on `-`; if that also fails, error; otherwise parse the three
fields as `u16`, propagating integer-parse failures as errors. -/
def Version.from_string (version : List Char) : Except VersionError Version :=
  let parts := splitOnChar '.' version
  let parts := if parts.length ≠ 3 then splitOnChar '-' version else parts
  match parts with
  | [p0, p1, p2] =>
    match parseU16 p0, parseU16 p1, parseU16 p2 with
    | some a, some b, some c => .ok ⟨a, b, c⟩
    | _, _, _ => .error (.InvalidVersionString version)
  | _ => .error (.InvalidVersionString version)

/-- Rust `Version::new`. -/
def Version.new (major minor patch : Nat) : Version :=
  ⟨major, minor, patch⟩

/-- Rust `Version::increment` (`&mut self`, modelled by returning the new
value).  The source does unchecked `u16` addition, so the increments are
taken modulo 2^16 (release-build wrapping semantics). -/
def Version.increment (v : Version) : VersionLevel → Version
  | .Major => { major := (v.major + 1) % 65536, minor := 0, patch := 0 }
  | .Minor => { v with minor := (v.minor + 1) % 65536, patch := 0 }
  | .Patch => { v with patch := (v.patch + 1) % 65536 }

/-- Rust `Version::create_child_version`: clones the receiver and increments
the copy. -/
def Version.create_child_version (v : Version) (change : VersionLevel) : Version :=
  v.increment change

/-- Rust `Version::to_string`: `format!("{}.{}.{}", major, minor, patch)`. -/
def Version.to_string (v : Version) : List Char :=
  natChars v.major ++ '.' :: (natChars v.minor ++ '.' :: natChars v.patch)

/-- Rust `Version::file_safe_string`: `format!("{}-{}-{}", ...)`. -/
def Version.file_safe_string (v : Version) : List Char :=
  natChars v.major ++ '-' :: (natChars v.minor ++ '-' :: natChars v.patch)

/-! ### FileName (src/domain/src/file_name.rs)

The datetime handling delegates to the external `jiff` crate, which is not
part of this repository.  Modelled from the spec: the timestamp in the token is
rendered with the fixed pattern `%Y-%m-%d-%H-%M-%S-%f%z`, i.e.
`YYYY-MM-DD-HH-MM-SS-ffffff±HHMM` with microsecond precision and a numeric
UTC offset, and parsing accepts exactly that shape (with basic calendar
range validation).  A jiff `Zoned` is modelled by the civil fields plus the
numeric offset this pattern captures. -/

/-- Modelled from the spec: the jiff `Zoned` fields observable through the
fixed filename pattern (civil date and time, microseconds, numeric offset).
`offNeg` is the offset sign, `true` for a negative (`-HHMM`) offset. -/
structure Zoned where
  year : Nat
  month : Nat
  day : Nat
  hour : Nat
  minute : Nat
  second : Nat
  micro : Nat
  offNeg : Bool
  offHour : Nat
  offMinute : Nat
deriving DecidableEq, Repr

/-- Modelled from the spec: basic range validity of the civil fields as the
jiff parser enforces them (four-digit year, calendar month and day, 24-hour
clock, microsecond fraction, offset up to ±25:59). -/
abbrev Zoned.Valid (z : Zoned) : Prop :=
  z.year ≤ 9999 ∧ 1 ≤ z.month ∧ z.month ≤ 12 ∧ 1 ≤ z.day ∧ z.day ≤ 31 ∧
  z.hour ≤ 23 ∧ z.minute ≤ 59 ∧ z.second ≤ 59 ∧ z.micro ≤ 999999 ∧
  z.offHour ≤ 25 ∧ z.offMinute ≤ 59

/-- Zero-padded fixed-width decimal rendering used by the strftime fields. -/
def padNum (width n : Nat) : List Char :=
  List.replicate (width - (natChars n).length) '0' ++ natChars n

/-- The date-and-time half of the formatted timestamp, up to and including
the microsecond fraction. -/
def Zoned.datimePrefix (z : Zoned) : List Char :=
  padNum 4 z.year ++ '-' :: (padNum 2 z.month ++ '-' :: (padNum 2 z.day ++ '-' ::
  (padNum 2 z.hour ++ '-' :: (padNum 2 z.minute ++ '-' :: (padNum 2 z.second ++ '-' ::
  padNum 6 z.micro)))))

/-- The digits of the `%z` numeric offset, without the sign. -/
def Zoned.offsetDigits (z : Zoned) : List Char :=
  padNum 2 z.offHour ++ padNum 2 z.offMinute

/-- Modelled from the spec: jiff `format("%Y-%m-%d-%H-%M-%S-%f%z", z)` for
the filename pattern. -/
def Zoned.strftimeFileName (z : Zoned) : List Char :=
  z.datimePrefix ++ (if z.offNeg then '-' else '+') :: z.offsetDigits

/-- Reads exactly `k` decimal digits from the front of the input. -/
def readDigits (k : Nat) (s : List Char) : Option (Nat × List Char) :=
  if (s.take k).length = k ∧ (s.take k).all Char.isDigit = true then
    some (digitsVal (s.take k), s.drop k)
  else none

/-- Reads one mandatory literal character. -/
def expectChar (c : Char) (s : List Char) : Option (List Char) :=
  match s with
  | d :: rest => if d = c then some rest else none
  | [] => none

/-- Reads the numeric offset sign; `true` means a negative offset. -/
def readSign (s : List Char) : Option (Bool × List Char) :=
  match s with
  | '+' :: rest => some (false, rest)
  | '-' :: rest => some (true, rest)
  | _ => none

/-- Final step of the strptime model: the whole input must be consumed and
the parsed fields must be in range. -/
def strptimeFinish (leftover : List Char) (z : Zoned) : Option Zoned :=
  if leftover = [] ∧ z.Valid then some z else none

/-- Reads one two-digit field preceded by a literal `-` separator. -/
def readSepDigits2 (s : List Char) : Option (Nat × List Char) := do
  let s1 ← expectChar '-' s
  readDigits 2 s1

/-- Reads the trailing `%z` numeric offset: sign, two offset-hour digits,
two offset-minute digits. -/
def readOffset (s : List Char) : Option (Bool × Nat × Nat × List Char) := do
  let (neg, r1) ← readSign s
  let (oh, r2) ← readDigits 2 r1
  let (om, r3) ← readDigits 2 r2
  some (neg, oh, om, r3)

/-- Modelled from the spec: jiff `Zoned::strptime("%Y-%m-%d-%H-%M-%S-%f%z", s)`
for the filename pattern; fails (`none`) whenever the input does not match
the fixed pattern or a field is out of range. -/
def Zoned.strptimeFileName (s : List Char) : Option Zoned := do
  let (y, r1) ← readDigits 4 s
  let (mo, r2) ← readSepDigits2 r1
  let (d, r3) ← readSepDigits2 r2
  let (h, r4) ← readSepDigits2 r3
  let (mi, r5) ← readSepDigits2 r4
  let (sec, r6) ← readSepDigits2 r5
  let r6b ← expectChar '-' r6
  let (us, r7) ← readDigits 6 r6b
  let (neg, oh, om, r8) ← readOffset r7
  strptimeFinish r8 ⟨y, mo, d, h, mi, sec, us, neg, oh, om⟩

/-- Rust constant `FILE_NAME_PLUS_REPLACEMENT = "-PLUS-"`. -/
def FILE_NAME_PLUS_REPLACEMENT : List Char := ['-', 'P', 'L', 'U', 'S', '-']

/-- Rust `str::replace("+", "-PLUS-")`: every `+` becomes the placeholder. -/
def replacePlusForward (s : List Char) : List Char :=
  s.flatMap fun c => if c = '+' then FILE_NAME_PLUS_REPLACEMENT else [c]

/-- Fuel-based scanner for `str::replace("-PLUS-", "+")`: leftmost,
non-overlapping occurrences of the placeholder collapse back to `+`. -/
def replacePlusBackAux : Nat → List Char → List Char
  | _, [] => []
  | 0, s => s
  | fuel + 1, c :: rest =>
    if c = '-' ∧ rest.take 5 = ['P', 'L', 'U', 'S', '-'] then
      '+' :: replacePlusBackAux fuel (rest.drop 5)
    else c :: replacePlusBackAux fuel rest

/-- Rust `str::replace("-PLUS-", "+")`. -/
def replacePlusBack (s : List Char) : List Char :=
  replacePlusBackAux s.length s

/-- Rust `FileName { datetime: Zoned, version: Version }`. -/
structure FileName where
  datetime : Zoned
  version : Version
deriving DecidableEq, Repr

/-- Rust `FileNameError`; the `jiff::Error` payload is abstracted away and
the `FilenameError` message is kept. -/
inductive FileNameError
  | FileUrlDateTime
  | FilenameError (msg : List Char)
deriving DecidableEq, Repr

/-- Outcome of `FileName::from_string`: a value, a typed error, or a panic
(the source calls `.unwrap()` on the version parse). -/
inductive FileNameOutcome
  | ok (f : FileName)
  | err (e : FileNameError)
  | panicked
deriving DecidableEq, Repr

/-- Rust `FileName::from_string`: split on every `_` requiring exactly two
parts, substitute the placeholder back, parse the timestamp with `?`, then
`Version::from_string(parts[1]).unwrap()` — a malformed version part is a
panic, not an error. -/
def FileName.from_string (file_name : List Char) : FileNameOutcome :=
  match splitOnChar '_' file_name with
  | [p0, p1] =>
    let ts := replacePlusBack p0
    match Zoned.strptimeFileName ts with
    | none => .err .FileUrlDateTime
    | some datetime =>
      match Version.from_string p1 with
      | .ok version => .ok ⟨datetime, version⟩
      | .error _ => .panicked
  | _ => .err (.FilenameError (("Too many parts in filename: ").toList ++ file_name))

/-- Rust `FileName::to_string`: format the datetime with the fixed pattern
(which cannot fail for this pattern), replace `+` with the placeholder, and
append `_` and the file-safe version. -/
def FileName.to_string (f : FileName) : List Char :=
  replacePlusForward f.datetime.strftimeFileName ++ '_' :: f.version.file_safe_string

/-! ### Instance and InstanceList (src/domain/src/instance.rs) -/

inductive InstanceType
  | Creation
  | Update
  | Deletion
  | Restoration
deriving DecidableEq, Repr

/-- Rust `Instance`; `datetime` is the jiff instant, modelled as a `Nat`
(jiff `Zoned` comparison and equality are by instant). -/
structure Instance where
  datetime : Nat
  change_note : String
  instance_type : InstanceType
  version : Version
deriving DecidableEq, Repr

/-- Rust `Instance::create_initial_instance`; `now` is the wall-clock value
read by `Zoned::now()`. -/
def Instance.create_initial_instance (now : Nat) (version_level : VersionLevel) : Instance :=
  { datetime := now
    change_note := "Instance Created"
    instance_type := .Creation
    version := (Version.new 0 0 0).create_child_version version_level }

/-- Rust `Instance::create_child_instance`. -/
def Instance.create_child_instance (self : Instance) (now : Nat)
    (change_note : String) (change_type : VersionLevel) : Instance :=
  { datetime := now
    change_note
    instance_type := .Update
    version := self.version.create_child_version change_type }

/-- Rust `Instance::create_deletion_instance`. -/
def Instance.create_deletion_instance (self : Instance) (now : Nat)
    (note : Option String) : Instance :=
  { datetime := now
    change_note := note.getD "Instance Deleted"
    instance_type := .Deletion
    version := self.version.create_child_version .Major }

/-- Rust `Instance::create_restored_instance`. -/
def Instance.create_restored_instance (self : Instance) (now : Nat)
    (note : Option String) : Instance :=
  { datetime := now
    change_note := note.getD "Instance restored"
    instance_type := .Restoration
    version := self.version.create_child_version .Major }

/-- Rust `Instance::is_type_of`. -/
def Instance.is_type_of (self : Instance) (instance_type : InstanceType) : Bool :=
  self.instance_type == instance_type

/-- Rust trait `Instanced`. -/
class Instanced (T : Type) where
  get_instance : T → Instance

/-- Rust `InstanceList<T: Instanced>`. -/
structure InstanceList (T : Type) [Instanced T] where
  instances : List T

/-- Rust `InstanceList::new`: sorts the input by ascending instance
datetime (`sort_by` is a stable sort, modelled by `mergeSort`). -/
def InstanceList.new {T : Type} [Instanced T] (values : List T) : InstanceList T :=
  ⟨values.mergeSort fun a b =>
    decide ((Instanced.get_instance a).datetime ≤ (Instanced.get_instance b).datetime)⟩

/-- Rust `InstanceList::latest`: `Vec::last`. -/
def InstanceList.latest {T : Type} [Instanced T] (self : InstanceList T) : Option T :=
  self.instances.getLast?

/-- Rust `InstanceList::earliest`: `Vec::first`. -/
def InstanceList.earliest {T : Type} [Instanced T] (self : InstanceList T) : Option T :=
  self.instances.head?

/-- Rust `InstanceList::len`. -/
def InstanceList.len {T : Type} [Instanced T] (self : InstanceList T) : Nat :=
  self.instances.length

/-- Rust `InstanceList::is_deleted`. -/
def InstanceList.is_deleted {T : Type} [Instanced T] (self : InstanceList T) : Bool :=
  match self.latest with
  | some i => (Instanced.get_instance i).is_type_of .Deletion
  | none => false

inductive InstanceError
  | CannotAddToDeletedInstanceList
  | DatetimeIncorrectlyOrdered
deriving DecidableEq, Repr

/-- Rust `InstanceList::add` (`&mut self`, modelled by returning the result
together with the post-state; the early error returns leave the state
unchanged). -/
def InstanceList.add {T : Type} [Instanced T] (self : InstanceList T) (new_instance : T) :
    Except InstanceError Unit × InstanceList T :=
  match self.latest with
  | some last_instance =>
    if (Instanced.get_instance new_instance).datetime <
        (Instanced.get_instance last_instance).datetime then
      (.error .DatetimeIncorrectlyOrdered, self)
    else if self.is_deleted &&
        !((Instanced.get_instance new_instance).is_type_of .Restoration) then
      (.error .CannotAddToDeletedInstanceList, self)
    else
      (.ok (), ⟨self.instances ++ [new_instance]⟩)
  | none =>
    if self.is_deleted &&
        !((Instanced.get_instance new_instance).is_type_of .Restoration) then
      (.error .CannotAddToDeletedInstanceList, self)
    else
      (.ok (), ⟨self.instances ++ [new_instance]⟩)

/-- Non-decreasing instance datetime, the ordering invariant of the list. -/
def tsLe {T : Type} [Instanced T] (a b : T) : Prop :=
  (Instanced.get_instance a).datetime ≤ (Instanced.get_instance b).datetime

/-- A list is sorted when consecutive entries have non-decreasing datetimes. -/
def InstanceList.SortedByDatetime {T : Type} [Instanced T] (self : InstanceList T) : Prop :=
  self.instances.Pairwise tsLe

/-- The lists reachable through the public constructors: `new` on any input
vector, and any successful `add`. -/
inductive InstanceList.Reachable {T : Type} [Instanced T] : InstanceList T → Prop
  | of_new (values : List T) : InstanceList.Reachable (InstanceList.new values)
  | of_add (l : InstanceList T) (x : T) (l2 : InstanceList T) :
      InstanceList.Reachable l → l.add x = (.ok (), l2) → InstanceList.Reachable l2

/-- Concrete payload mirroring the `TestInstance` wrapper of the test module in the source, used to instantiate the generic container. -/
structure TestInstance where
  instance_meta : Instance
deriving DecidableEq, Repr

instance : Instanced TestInstance :=
  ⟨TestInstance.instance_meta⟩

/-! ### Lemmas about decimal digit strings -/

theorem digitChar_isDigit : ∀ d < 10, (digitChar d).isDigit = true := by decide

theorem digitChar_toNat : ∀ d < 10, (digitChar d).toNat = 48 + d := by decide

theorem digitsVal_append_single (xs : List Char) (c : Char) :
    digitsVal (xs ++ [c]) = digitsVal xs * 10 + (c.toNat - 48) := by
  simp [digitsVal, List.foldl_append]

theorem digitsVal_replicate_zero (k : Nat) (s : List Char) :
    digitsVal (List.replicate k '0' ++ s) = digitsVal s := by
  induction k with
  | zero => simp
  | succ k ih =>
    simpa [digitsVal, List.replicate_succ] using ih

theorem natCharsFuel_all_digit (fuel : Nat) :
    ∀ n, (natCharsFuel fuel n).all Char.isDigit = true := by
  induction fuel with
  | zero => intro n; simp [natCharsFuel]
  | succ fuel ih =>
    intro n
    by_cases h : n = 0
    · simp [natCharsFuel, h]
    · simp only [natCharsFuel, if_neg h, List.all_append, ih (n / 10), Bool.true_and,
        List.all_cons, List.all_nil, Bool.and_true]
      exact digitChar_isDigit (n % 10) (Nat.mod_lt n (by norm_num))

theorem natCharsFuel_val (fuel : Nat) :
    ∀ n, n ≤ fuel → digitsVal (natCharsFuel fuel n) = n := by
  induction fuel with
  | zero =>
    intro n hn
    have : n = 0 := Nat.le_zero.mp hn
    simp [natCharsFuel, this, digitsVal]
  | succ fuel ih =>
    intro n hn
    by_cases h : n = 0
    · simp [natCharsFuel, h, digitsVal]
    · have hdiv : n / 10 ≤ fuel := by
        have : n / 10 < n := Nat.div_lt_self (Nat.pos_of_ne_zero h) (by norm_num)
        omega
      rw [natCharsFuel, if_neg h, digitsVal_append_single, ih (n / 10) hdiv,
        digitChar_toNat (n % 10) (Nat.mod_lt n (by norm_num))]
      omega

theorem natCharsFuel_length (fuel : Nat) :
    ∀ n w, n ≤ fuel → n < 10 ^ w → (natCharsFuel fuel n).length ≤ w := by
  induction fuel with
  | zero => intro n w _ _; simp [natCharsFuel]
  | succ fuel ih =>
    intro n w hn hw
    by_cases h : n = 0
    · simp [natCharsFuel, h]
    · have hwpos : 0 < w := by
        rcases Nat.eq_zero_or_pos w with hw0 | hw0
        · subst hw0; simp at hw; omega
        · exact hw0
      have hdiv : n / 10 ≤ fuel := by
        have : n / 10 < n := Nat.div_lt_self (Nat.pos_of_ne_zero h) (by norm_num)
        omega
      have hdivlt : n / 10 < 10 ^ (w - 1) := by
        have h10 : (0:Nat) < 10 := by norm_num
        rw [Nat.div_lt_iff_lt_mul h10]
        calc n < 10 ^ w := hw
          _ = 10 ^ (w - 1) * 10 := by
            conv_lhs => rw [show w = (w - 1) + 1 by omega]
            rw [pow_succ]
      have := ih (n / 10) (w - 1) hdiv hdivlt
      rw [natCharsFuel, if_neg h]
      simp only [List.length_append, List.length_cons, List.length_nil]
      omega

theorem natChars_ne_nil (n : Nat) : natChars n ≠ [] := by
  by_cases h : n = 0
  · simp [natChars, h]
  · rw [natChars, if_neg h]
    have hc : 0 < n := Nat.pos_of_ne_zero h
    rcases n with _ | m
    · omega
    · rw [natCharsFuel, if_neg h]
      simp

theorem natChars_all_digit (n : Nat) : (natChars n).all Char.isDigit = true := by
  by_cases h : n = 0
  · simp [natChars, h]
  · rw [natChars, if_neg h]; exact natCharsFuel_all_digit n n

theorem natChars_val (n : Nat) : digitsVal (natChars n) = n := by
  by_cases h : n = 0
  · simp [natChars, h, digitsVal]
  · rw [natChars, if_neg h]; exact natCharsFuel_val n n le_rfl

theorem natChars_length_le {n w : Nat} (hw : 0 < w) (h : n < 10 ^ w) :
    (natChars n).length ≤ w := by
  by_cases h0 : n = 0
  · simp [natChars, h0]; omega
  · rw [natChars, if_neg h0]; exact natCharsFuel_length n n w le_rfl h

theorem not_mem_natChars {c : Char} (hc : c.isDigit = false) (n : Nat) :
    c ∉ natChars n := by
  intro hmem
  have := List.all_eq_true.mp (natChars_all_digit n) c hmem
  rw [hc] at this
  exact Bool.false_ne_true this

theorem parseU16_natChars {n : Nat} (h : n ≤ 65535) : parseU16 (natChars n) = some n := by
  have hplus : (natChars n).head? ≠ some '+' := by
    intro hh
    have hmem : '+' ∈ natChars n := by
      rcases hn : natChars n with _ | ⟨c, t⟩
      · rw [hn] at hh; simp at hh
      · rw [hn] at hh; simp at hh; simp [hn, hh]
    exact not_mem_natChars (by decide) n hmem
  rw [parseU16]
  simp only [if_neg hplus]
  rw [if_pos ⟨natChars_ne_nil n, natChars_all_digit n, by rw [natChars_val]; exact h⟩,
    natChars_val]

/-! ### Lemmas about splitOnChar -/

theorem splitOnChar_ne_nil (sep : Char) (s : List Char) : splitOnChar sep s ≠ [] := by
  cases s with
  | nil => simp [splitOnChar]
  | cons c rest =>
    rw [splitOnChar]
    rcases h : splitOnChar sep rest with _ | ⟨a, t⟩
    · simp
    · by_cases hc : c = sep <;> simp [hc]

theorem splitOnChar_of_not_mem {sep : Char} {s : List Char} (h : sep ∉ s) :
    splitOnChar sep s = [s] := by
  induction s with
  | nil => rfl
  | cons c rest ih =>
    have hcr : sep ∉ rest := fun hx => h (List.mem_cons_of_mem c hx)
    have hc : c ≠ sep := fun hx => h (by simp [hx])
    rw [splitOnChar, ih hcr]
    simp [hc]

theorem splitOnChar_append {sep : Char} {xs : List Char} (ys : List Char) (h : sep ∉ xs) :
    splitOnChar sep (xs ++ sep :: ys) = xs :: splitOnChar sep ys := by
  induction xs with
  | nil =>
    simp only [List.nil_append]
    rw [splitOnChar]
    rcases hy : splitOnChar sep ys with _ | ⟨a, t⟩
    · exact absurd hy (splitOnChar_ne_nil sep ys)
    · simp
  | cons c xs ih =>
    have hcr : sep ∉ xs := fun hx => h (List.mem_cons_of_mem c hx)
    have hc : c ≠ sep := fun hx => h (by simp [hx])
    simp only [List.cons_append]
    rw [splitOnChar, ih hcr]
    simp [hc]

theorem length_splitOnChar (sep : Char) (s : List Char) :
    (splitOnChar sep s).length = s.count sep + 1 := by
  induction s with
  | nil => simp [splitOnChar]
  | cons c rest ih =>
    rw [splitOnChar]
    rcases h : splitOnChar sep rest with _ | ⟨a, t⟩
    · exact absurd h (splitOnChar_ne_nil sep rest)
    · rw [h] at ih
      simp only [List.length_cons] at ih
      by_cases hc : c = sep
      · subst hc
        simp only [List.count_cons_self]
        simp
        omega
      · simp [hc, List.count_cons]
        omega

/-! ### Version parse/format round trip -/

theorem from_string_to_string {v : Version} (h : v.Valid) :
    Version.from_string v.to_string = .ok v := by
  obtain ⟨h1, h2, h3⟩ := h
  have hdot : ∀ n : Nat, '.' ∉ natChars n := fun n => not_mem_natChars (by decide) n
  have hsplit : splitOnChar '.' v.to_string
      = [natChars v.major, natChars v.minor, natChars v.patch] := by
    rw [Version.to_string, splitOnChar_append _ (hdot _), splitOnChar_append _ (hdot _),
      splitOnChar_of_not_mem (hdot _)]
  simp only [Version.from_string, hsplit, List.length_cons, List.length_nil]
  norm_num
  simp [parseU16_natChars h1, parseU16_natChars h2, parseU16_natChars h3]

theorem from_string_file_safe {v : Version} (h : v.Valid) :
    Version.from_string v.file_safe_string = .ok v := by
  obtain ⟨h1, h2, h3⟩ := h
  have hdash : ∀ n : Nat, '-' ∉ natChars n := fun n => not_mem_natChars (by decide) n
  have hdot : '.' ∉ v.file_safe_string := by
    intro hmem
    rw [Version.file_safe_string] at hmem
    simp only [List.mem_append, List.mem_cons] at hmem
    rcases hmem with hx | hx | hx | hx | hx
    · exact not_mem_natChars (by decide) _ hx
    · exact absurd hx (by decide)
    · exact not_mem_natChars (by decide) _ hx
    · exact absurd hx (by decide)
    · exact not_mem_natChars (by decide) _ hx
  have hsplit1 : splitOnChar '.' v.file_safe_string = [v.file_safe_string] :=
    splitOnChar_of_not_mem hdot
  have hsplit2 : splitOnChar '-' v.file_safe_string
      = [natChars v.major, natChars v.minor, natChars v.patch] := by
    rw [Version.file_safe_string, splitOnChar_append _ (hdash _), splitOnChar_append _ (hdash _),
      splitOnChar_of_not_mem (hdash _)]
  simp only [Version.from_string, hsplit1, List.length_cons, List.length_nil]
  norm_num
  rw [hsplit2]
  simp [parseU16_natChars h1, parseU16_natChars h2, parseU16_natChars h3]

/-! ### Lemmas about padNum and the strptime field readers -/

theorem padNum_length {w n : Nat} (hw : 0 < w) (h : n < 10 ^ w) :
    (padNum w n).length = w := by
  have hle := natChars_length_le hw h
  simp only [padNum, List.length_append, List.length_replicate]
  omega

theorem padNum_all_digit (w n : Nat) : (padNum w n).all Char.isDigit = true := by
  rw [padNum, List.all_append]
  have h1 : (List.replicate (w - (natChars n).length) '0').all Char.isDigit = true :=
    List.all_eq_true.mpr fun c hc => by rw [List.eq_of_mem_replicate hc]; decide
  rw [h1, natChars_all_digit]
  rfl

theorem padNum_val (w n : Nat) : digitsVal (padNum w n) = n := by
  rw [padNum, digitsVal_replicate_zero, natChars_val]

theorem not_mem_padNum {c : Char} (hc : c.isDigit = false) (w n : Nat) :
    c ∉ padNum w n := by
  intro hmem
  have := List.all_eq_true.mp (padNum_all_digit w n) c hmem
  rw [hc] at this
  exact Bool.false_ne_true this

theorem readDigits_padNum {w n : Nat} (hw : 0 < w) (h : n < 10 ^ w) (rest : List Char) :
    readDigits w (padNum w n ++ rest) = some (n, rest) := by
  have hlen := padNum_length hw h
  have htake : (padNum w n ++ rest).take w = padNum w n := by
    have := List.take_left (padNum w n) rest
    rwa [hlen] at this
  have hdrop : (padNum w n ++ rest).drop w = rest := by
    have := List.drop_left (padNum w n) rest
    rwa [hlen] at this
  rw [readDigits, htake, hdrop, if_pos ⟨hlen, padNum_all_digit w n⟩, padNum_val]

theorem readDigits_padNum_nil {w n : Nat} (hw : 0 < w) (h : n < 10 ^ w) :
    readDigits w (padNum w n) = some (n, []) := by
  have := readDigits_padNum hw h []
  rwa [List.append_nil] at this

theorem expectChar_cons (c : Char) (t : List Char) : expectChar c (c :: t) = some t := by
  simp [expectChar]

theorem readSepDigits2_eval {n : Nat} (h : n < 100) (rest : List Char) :
    readSepDigits2 ('-' :: (padNum 2 n ++ rest)) = some (n, rest) := by
  rw [readSepDigits2]
  simp only [expectChar_cons, Option.some_bind]
  exact readDigits_padNum (by norm_num) (lt_of_lt_of_le h (by norm_num)) rest

theorem readSign_pos (t : List Char) : readSign ('+' :: t) = some (false, t) := rfl

theorem readSign_neg (t : List Char) : readSign ('-' :: t) = some (true, t) := rfl

theorem readOffset_eval_pos {oh om : Nat} (hoh : oh < 100) (hom : om < 100) :
    readOffset ('+' :: (padNum 2 oh ++ padNum 2 om)) = some (false, oh, om, []) := by
  have hoh2 : oh < 10 ^ 2 := lt_of_lt_of_le hoh (by norm_num)
  have hom2 : om < 10 ^ 2 := lt_of_lt_of_le hom (by norm_num)
  rw [readOffset, readSign_pos]
  simp only [Option.bind_eq_bind, Option.some_bind,
    readDigits_padNum (show (0:Nat) < 2 by norm_num) hoh2,
    readDigits_padNum_nil (show (0:Nat) < 2 by norm_num) hom2]

theorem readOffset_eval_neg {oh om : Nat} (hoh : oh < 100) (hom : om < 100) :
    readOffset ('-' :: (padNum 2 oh ++ padNum 2 om)) = some (true, oh, om, []) := by
  have hoh2 : oh < 10 ^ 2 := lt_of_lt_of_le hoh (by norm_num)
  have hom2 : om < 10 ^ 2 := lt_of_lt_of_le hom (by norm_num)
  rw [readOffset, readSign_neg]
  simp only [Option.bind_eq_bind, Option.some_bind,
    readDigits_padNum (show (0:Nat) < 2 by norm_num) hoh2,
    readDigits_padNum_nil (show (0:Nat) < 2 by norm_num) hom2]

/-! ### strptime recovers strftime output -/

theorem strptime_strftime {z : Zoned} (h : z.Valid) :
    Zoned.strptimeFileName z.strftimeFileName = some z := by
  have hv := h
  obtain ⟨hy, hmo1, hmo2, hd1, hd2, hh, hmi, hs, hus, hoh, hom⟩ := h
  rcases hneg : z.offNeg with _ | _
  · have hshape : z.strftimeFileName
        = padNum 4 z.year ++ '-' :: (padNum 2 z.month ++ '-' :: (padNum 2 z.day ++ '-' ::
          (padNum 2 z.hour ++ '-' :: (padNum 2 z.minute ++ '-' :: (padNum 2 z.second ++ '-' ::
          (padNum 6 z.micro ++ '+' ::
            (padNum 2 z.offHour ++ padNum 2 z.offMinute))))))) := by
      simp [Zoned.strftimeFileName, Zoned.datimePrefix, Zoned.offsetDigits,
        List.append_assoc, hneg]
    rw [Zoned.strptimeFileName, hshape]
    simp only [Option.bind_eq_bind, Option.some_bind, expectChar_cons,
      readDigits_padNum (show (0:Nat) < 4 by norm_num) (lt_of_le_of_lt hy (by norm_num)),
      readDigits_padNum (show (0:Nat) < 6 by norm_num) (lt_of_le_of_lt hus (by norm_num)),
      readSepDigits2_eval (show z.month < 100 by omega),
      readSepDigits2_eval (show z.day < 100 by omega),
      readSepDigits2_eval (show z.hour < 100 by omega),
      readSepDigits2_eval (show z.minute < 100 by omega),
      readSepDigits2_eval (show z.second < 100 by omega),
      readOffset_eval_pos (show z.offHour < 100 by omega) (show z.offMinute < 100 by omega)]
    have hmkz : (⟨z.year, z.month, z.day, z.hour, z.minute, z.second, z.micro, false,
        z.offHour, z.offMinute⟩ : Zoned) = z := by
      rw [← hneg]
    rw [hmkz, strptimeFinish, if_pos ⟨rfl, hv⟩]
  · have hshape : z.strftimeFileName
        = padNum 4 z.year ++ '-' :: (padNum 2 z.month ++ '-' :: (padNum 2 z.day ++ '-' ::
          (padNum 2 z.hour ++ '-' :: (padNum 2 z.minute ++ '-' :: (padNum 2 z.second ++ '-' ::
          (padNum 6 z.micro ++ '-' ::
            (padNum 2 z.offHour ++ padNum 2 z.offMinute))))))) := by
      simp [Zoned.strftimeFileName, Zoned.datimePrefix, Zoned.offsetDigits,
        List.append_assoc, hneg]
    rw [Zoned.strptimeFileName, hshape]
    simp only [Option.bind_eq_bind, Option.some_bind, expectChar_cons,
      readDigits_padNum (show (0:Nat) < 4 by norm_num) (lt_of_le_of_lt hy (by norm_num)),
      readDigits_padNum (show (0:Nat) < 6 by norm_num) (lt_of_le_of_lt hus (by norm_num)),
      readSepDigits2_eval (show z.month < 100 by omega),
      readSepDigits2_eval (show z.day < 100 by omega),
      readSepDigits2_eval (show z.hour < 100 by omega),
      readSepDigits2_eval (show z.minute < 100 by omega),
      readSepDigits2_eval (show z.second < 100 by omega),
      readOffset_eval_neg (show z.offHour < 100 by omega) (show z.offMinute < 100 by omega)]
    have hmkz : (⟨z.year, z.month, z.day, z.hour, z.minute, z.second, z.micro, true,
        z.offHour, z.offMinute⟩ : Zoned) = z := by
      rw [← hneg]
    rw [hmkz, strptimeFinish, if_pos ⟨rfl, hv⟩]

/-! ### Lemmas about the placeholder replacement -/

theorem replacePlusForward_of_not_mem {s : List Char} (h : '+' ∉ s) :
    replacePlusForward s = s := by
  induction s with
  | nil => rfl
  | cons c t ih =>
    have hc : c ≠ '+' := fun hx => h (by simp [hx])
    have ht : '+' ∉ t := fun hx => h (List.mem_cons_of_mem c hx)
    simp only [replacePlusForward, List.flatMap_cons]
    rw [if_neg hc]
    simp only [List.singleton_append]
    exact congrArg (c :: ·) (ih ht)

theorem replacePlusForward_append (xs ys : List Char) :
    replacePlusForward (xs ++ ys) = replacePlusForward xs ++ replacePlusForward ys := by
  simp [replacePlusForward, List.flatMap_append]

theorem replacePlusForward_plus_cons (t : List Char) :
    replacePlusForward ('+' :: t) = FILE_NAME_PLUS_REPLACEMENT ++ replacePlusForward t := by
  simp [replacePlusForward, List.flatMap_cons]

theorem replacePlusBackAux_of_not_mem :
    ∀ (fuel : Nat) (s : List Char), s.length ≤ fuel → 'P' ∉ s →
      replacePlusBackAux fuel s = s := by
  intro fuel
  induction fuel with
  | zero =>
    intro s hlen _
    cases s with
    | nil => rfl
    | cons c t => simp at hlen
  | succ fuel ih =>
    intro s hlen hP
    cases s with
    | nil => rfl
    | cons c rest =>
      have hcond : ¬ (c = '-' ∧ rest.take 5 = ['P', 'L', 'U', 'S', '-']) := by
        rintro ⟨-, htake⟩
        have h1 : 'P' ∈ rest.take 5 := by rw [htake]; simp
        exact hP (List.mem_cons_of_mem c (List.take_subset 5 rest h1))
      rw [replacePlusBackAux, if_neg hcond]
      have hrest : rest.length ≤ fuel := by simp at hlen; omega
      have ht : 'P' ∉ rest := fun hx => hP (List.mem_cons_of_mem c hx)
      exact congrArg (c :: ·) (ih rest hrest ht)

theorem replacePlusBackAux_pattern :
    ∀ (xs : List Char) (fuel : Nat) (ys : List Char),
      (xs ++ FILE_NAME_PLUS_REPLACEMENT ++ ys).length ≤ fuel → 'P' ∉ xs → 'P' ∉ ys →
      replacePlusBackAux fuel (xs ++ FILE_NAME_PLUS_REPLACEMENT ++ ys) = xs ++ '+' :: ys := by
  intro xs
  induction xs with
  | nil =>
    intro fuel ys hlen hxs hys
    simp only [List.nil_append, FILE_NAME_PLUS_REPLACEMENT, List.cons_append,
      List.length_cons, List.length_append] at hlen ⊢
    cases fuel with
    | zero => omega
    | succ f =>
      rw [replacePlusBackAux, if_pos ⟨rfl, by simp⟩]
      simp only [List.drop_succ_cons, List.drop_zero]
      have hys_len : ys.length ≤ f := by simp at hlen; omega
      exact congrArg ('+' :: ·) (replacePlusBackAux_of_not_mem f ys hys_len hys)
  | cons c xs ih =>
    intro fuel ys hlen hxs hys
    have hcxs : 'P' ∉ xs := fun hx => hxs (List.mem_cons_of_mem c hx)
    simp only [List.cons_append] at hlen ⊢
    cases fuel with
    | zero => simp [FILE_NAME_PLUS_REPLACEMENT] at hlen
    | succ f =>
      have hcond : ¬ (c = '-' ∧ (xs ++ FILE_NAME_PLUS_REPLACEMENT ++ ys).take 5
          = ['P', 'L', 'U', 'S', '-']) := by
        rintro ⟨-, htake⟩
        cases hxx : xs with
        | nil =>
          rw [hxx] at htake
          simp [FILE_NAME_PLUS_REPLACEMENT] at htake
        | cons d t =>
          rw [hxx] at htake
          simp only [List.cons_append, List.take_succ_cons] at htake
          have hd : d = 'P' := (List.cons.injEq _ _ _ _).mp htake |>.1
          exact hxs (by rw [hxx, hd]; simp)
      rw [replacePlusBackAux, if_neg hcond]
      have hlen2 : (xs ++ FILE_NAME_PLUS_REPLACEMENT ++ ys).length ≤ f := by
        simp at hlen ⊢; omega
      exact congrArg (c :: ·) (ih f ys hlen2 hcxs hys)

theorem replacePlusBack_of_not_mem {s : List Char} (h : 'P' ∉ s) :
    replacePlusBack s = s :=
  replacePlusBackAux_of_not_mem s.length s le_rfl h

theorem replacePlusBack_pattern {xs ys : List Char} (hxs : 'P' ∉ xs) (hys : 'P' ∉ ys) :
    replacePlusBack (xs ++ FILE_NAME_PLUS_REPLACEMENT ++ ys) = xs ++ '+' :: ys :=
  replacePlusBackAux_pattern xs _ ys le_rfl hxs hys

/-! ### Characters occurring in the formatted timestamp -/

theorem not_mem_datimePrefix {c : Char} (hdigit : c.isDigit = false) (hdash : c ≠ '-')
    (z : Zoned) : c ∉ z.datimePrefix := by
  intro hmem
  rw [Zoned.datimePrefix] at hmem
  simp only [List.mem_append, List.mem_cons] at hmem
  rcases hmem with h | h | h | h | h | h | h | h | h | h | h | h | h <;>
    first
      | exact not_mem_padNum hdigit _ _ h
      | exact hdash h

theorem not_mem_offsetDigits {c : Char} (hdigit : c.isDigit = false) (z : Zoned) :
    c ∉ z.offsetDigits := by
  intro hmem
  simp only [Zoned.offsetDigits, List.mem_append] at hmem
  rcases hmem with h | h <;> exact not_mem_padNum hdigit _ _ h

theorem not_mem_strftime {c : Char} (hdigit : c.isDigit = false) (hdash : c ≠ '-')
    (hplus : c ≠ '+') (z : Zoned) : c ∉ z.strftimeFileName := by
  intro hmem
  rw [Zoned.strftimeFileName] at hmem
  simp only [List.mem_append, List.mem_cons] at hmem
  rcases hmem with h | h | h
  · exact not_mem_datimePrefix hdigit hdash z h
  · by_cases hb : z.offNeg = true
    · rw [if_pos hb] at h; exact hdash h
    · rw [if_neg hb] at h; exact hplus h
  · exact not_mem_offsetDigits hdigit z h

/-! ### FileName round trip -/

theorem fileName_from_string_parts {z : Zoned} {v : Version} (R V : List Char)
    (hsplit : splitOnChar '_' (R ++ '_' :: V) = [R, V])
    (hback : Zoned.strptimeFileName (replacePlusBack R) = some z)
    (hver : Version.from_string V = .ok v) :
    FileName.from_string (R ++ '_' :: V) = .ok ⟨z, v⟩ := by
  simp only [FileName.from_string, hsplit, hback, hver]

theorem fileName_round_trip {f : FileName} (hz : f.datetime.Valid) (hv : f.version.Valid) :
    FileName.from_string f.to_string = .ok f := by
  have hVdash : ∀ n : Nat, '-' ∉ natChars n := fun n => not_mem_natChars (by decide) n
  have hV_nounder : '_' ∉ f.version.file_safe_string := by
    intro hmem
    rw [Version.file_safe_string] at hmem
    simp only [List.mem_append, List.mem_cons] at hmem
    rcases hmem with h | h | h | h | h
    · exact not_mem_natChars (by decide) _ h
    · exact absurd h (by decide)
    · exact not_mem_natChars (by decide) _ h
    · exact absurd h (by decide)
    · exact not_mem_natChars (by decide) _ h
  rcases hneg : f.datetime.offNeg with _ | _
  · -- positive offset: the sign character is replaced by the placeholder
    have hsignshape : f.datetime.strftimeFileName
        = f.datetime.datimePrefix ++ '+' :: f.datetime.offsetDigits := by
      rw [Zoned.strftimeFileName, hneg]
      simp
    have hplusA : '+' ∉ f.datetime.datimePrefix :=
      not_mem_datimePrefix (by decide) (by decide) _
    have hplusO : '+' ∉ f.datetime.offsetDigits := not_mem_offsetDigits (by decide) _
    have hRPF : replacePlusForward f.datetime.strftimeFileName
        = f.datetime.datimePrefix ++ FILE_NAME_PLUS_REPLACEMENT ++ f.datetime.offsetDigits := by
      rw [hsignshape, replacePlusForward_append, replacePlusForward_plus_cons,
        replacePlusForward_of_not_mem hplusA, replacePlusForward_of_not_mem hplusO,
        List.append_assoc]
    have hPA : 'P' ∉ f.datetime.datimePrefix :=
      not_mem_datimePrefix (by decide) (by decide) _
    have hPO : 'P' ∉ f.datetime.offsetDigits := not_mem_offsetDigits (by decide) _
    have hback : replacePlusBack (replacePlusForward f.datetime.strftimeFileName)
        = f.datetime.strftimeFileName := by
      rw [hRPF, replacePlusBack_pattern hPA hPO, hsignshape]
    have hR_nounder : '_' ∉ replacePlusForward f.datetime.strftimeFileName := by
      rw [hRPF]
      intro hmem
      simp only [List.mem_append] at hmem
      rcases hmem with (h | h) | h
      · exact not_mem_datimePrefix (by decide) (by decide) _ h
      · exact absurd h (by decide)
      · exact not_mem_offsetDigits (by decide) _ h
    have hsplit : splitOnChar '_'
        (replacePlusForward f.datetime.strftimeFileName ++ '_' :: f.version.file_safe_string)
        = [replacePlusForward f.datetime.strftimeFileName, f.version.file_safe_string] := by
      rw [splitOnChar_append _ hR_nounder, splitOnChar_of_not_mem hV_nounder]
    have hres := fileName_from_string_parts
      (replacePlusForward f.datetime.strftimeFileName) f.version.file_safe_string
      hsplit
      (by rw [hback]; exact strptime_strftime hz)
      (from_string_file_safe hv)
    show FileName.from_string
      (replacePlusForward f.datetime.strftimeFileName ++ '_' :: f.version.file_safe_string)
      = .ok f
    rw [hres]
  · -- negative offset: no '+' anywhere, both replacements are the identity
    have hplusS : '+' ∉ f.datetime.strftimeFileName := by
      intro hmem
      rw [Zoned.strftimeFileName, hneg] at hmem
      simp only [List.mem_append, List.mem_cons] at hmem
      rcases hmem with h | h | h
      · exact not_mem_datimePrefix (by decide) (by decide) _ h
      · exact absurd h (by decide)
      · exact not_mem_offsetDigits (by decide) _ h
    have hPS : 'P' ∉ f.datetime.strftimeFileName := by
      intro hmem
      rw [Zoned.strftimeFileName, hneg] at hmem
      simp only [List.mem_append, List.mem_cons] at hmem
      rcases hmem with h | h | h
      · exact not_mem_datimePrefix (by decide) (by decide) _ h
      · exact absurd h (by decide)
      · exact not_mem_offsetDigits (by decide) _ h
    have hRPF : replacePlusForward f.datetime.strftimeFileName
        = f.datetime.strftimeFileName := replacePlusForward_of_not_mem hplusS
    have hR_nounder : '_' ∉ replacePlusForward f.datetime.strftimeFileName := by
      rw [hRPF]
      exact not_mem_strftime (by decide) (by decide) (by decide) _
    have hsplit : splitOnChar '_'
        (replacePlusForward f.datetime.strftimeFileName ++ '_' :: f.version.file_safe_string)
        = [replacePlusForward f.datetime.strftimeFileName, f.version.file_safe_string] := by
      rw [splitOnChar_append _ hR_nounder, splitOnChar_of_not_mem hV_nounder]
    have hres := fileName_from_string_parts
      (replacePlusForward f.datetime.strftimeFileName) f.version.file_safe_string
      hsplit
      (by rw [hRPF, replacePlusBack_of_not_mem hPS]; exact strptime_strftime hz)
      (from_string_file_safe hv)
    show FileName.from_string
      (replacePlusForward f.datetime.strftimeFileName ++ '_' :: f.version.file_safe_string)
      = .ok f
    rw [hres]

/-! ### InstanceList lemmas -/

theorem getLast?_mem_of_eq_some {α : Type} {l : List α} {a : α}
    (h : l.getLast? = some a) : a ∈ l := by
  obtain ⟨ys, rfl⟩ := List.getLast?_eq_some_iff.mp h
  simp

theorem new_sorted {T : Type} [Instanced T] (values : List T) :
    (InstanceList.new values).SortedByDatetime := by
  have hs := @List.sorted_mergeSort T
    (fun a b : T =>
      decide ((Instanced.get_instance a).datetime ≤ (Instanced.get_instance b).datetime))
    (fun a b c hab hbc => by
      simp only [decide_eq_true_eq] at *
      omega)
    (fun a b => by
      simp only [Bool.or_eq_true, decide_eq_true_eq]
      omega)
    values
  exact hs.imp fun h => by simpa [tsLe] using h

theorem pairwise_le_getLast {T : Type} [Instanced T] :
    ∀ (l : List T) (lst : T), l.Pairwise tsLe → l.getLast? = some lst →
      ∀ a ∈ l, tsLe a lst := by
  intro l
  induction l with
  | nil => intro lst _ h a ha; simp at ha
  | cons c rest ih =>
    intro lst hp hlast a ha
    cases rest with
    | nil =>
      simp only [List.getLast?_singleton, Option.some.injEq] at hlast
      subst hlast
      rcases List.mem_singleton.mp ha with rfl
      exact le_rfl
    | cons d t =>
      rw [List.getLast?_cons_cons] at hlast
      rcases List.mem_cons.mp ha with rfl | ha2
      · exact (List.pairwise_cons.mp hp).1 lst (getLast?_mem_of_eq_some hlast)
      · exact ih lst (List.pairwise_cons.mp hp).2 hlast a ha2

theorem pairwise_head_le {T : Type} [Instanced T] (l : List T) (e : T)
    (hp : l.Pairwise tsLe) (hh : l.head? = some e) : ∀ a ∈ l, tsLe e a := by
  cases l with
  | nil => simp at hh
  | cons c rest =>
    simp only [List.head?_cons, Option.some.injEq] at hh
    subst hh
    intro a ha
    rcases List.mem_cons.mp ha with rfl | ha2
    · exact le_rfl
    · exact (List.pairwise_cons.mp hp).1 a ha2

theorem add_rejects_earlier {T : Type} [Instanced T] (l : InstanceList T) (x last : T)
    (hlast : l.latest = some last)
    (hlt : (Instanced.get_instance x).datetime < (Instanced.get_instance last).datetime) :
    l.add x = (.error .DatetimeIncorrectlyOrdered, l) := by
  simp only [InstanceList.add, hlast]
  rw [if_pos hlt]

theorem add_cases {T : Type} [Instanced T] (l : InstanceList T) (x : T) :
    (l.add x = (.ok (), ⟨l.instances ++ [x]⟩)) ∨ (∃ e, l.add x = (.error e, l)) := by
  rcases hl : l.latest with _ | last
  · simp only [InstanceList.add, hl]
    split_ifs with h1
    · right; exact ⟨_, rfl⟩
    · left; rfl
  · simp only [InstanceList.add, hl]
    split_ifs with h1 h2
    · right; exact ⟨_, rfl⟩
    · right; exact ⟨_, rfl⟩
    · left; rfl

theorem is_deleted_latest {T : Type} [Instanced T] (l : InstanceList T) (last : T)
    (hlast : l.latest = some last) :
    l.is_deleted = (Instanced.get_instance last).is_type_of .Deletion := by
  simp only [InstanceList.is_deleted, hlast]

theorem is_deleted_none {T : Type} [Instanced T] (l : InstanceList T)
    (hlast : l.latest = none) : l.is_deleted = false := by
  simp only [InstanceList.is_deleted, hlast]

theorem add_rejects_deleted {T : Type} [Instanced T] (l : InstanceList T) (x last : T)
    (hlast : l.latest = some last)
    (hdel : (Instanced.get_instance last).is_type_of .Deletion = true)
    (hres : (Instanced.get_instance x).is_type_of .Restoration = false)
    (hge : (Instanced.get_instance last).datetime ≤ (Instanced.get_instance x).datetime) :
    l.add x = (.error .CannotAddToDeletedInstanceList, l) := by
  have hd := is_deleted_latest l last hlast
  simp only [InstanceList.add, hlast]
  rw [if_neg (Nat.not_lt.mpr hge), if_pos (by rw [hd, hdel, hres]; rfl)]

theorem add_succeeds {T : Type} [Instanced T] (l : InstanceList T) (x : T)
    (hord : ∀ last, l.latest = some last →
      (Instanced.get_instance last).datetime ≤ (Instanced.get_instance x).datetime)
    (hdel : l.is_deleted = false ∨ (Instanced.get_instance x).is_type_of .Restoration = true) :
    l.add x = (.ok (), ⟨l.instances ++ [x]⟩) := by
  have hcond : ¬ (l.is_deleted && !((Instanced.get_instance x).is_type_of .Restoration)) = true := by
    rcases hdel with h | h
    · rw [h]; simp
    · rw [h]; simp
  rcases hl : l.latest with _ | last
  · simp only [InstanceList.add, hl]
    rw [if_neg hcond]
  · simp only [InstanceList.add, hl]
    rw [if_neg (Nat.not_lt.mpr (hord last hl)), if_neg hcond]

theorem add_error_state {T : Type} [Instanced T] (l l2 : InstanceList T) (x : T)
    (e : InstanceError) (h : l.add x = (.error e, l2)) : l2 = l := by
  rcases add_cases l x with hc | ⟨e2, hc⟩
  · rw [hc] at h; simp at h
  · rw [hc] at h
    simp only [Prod.mk.injEq] at h
    exact h.2.symm

theorem add_ok_state {T : Type} [Instanced T] (l l2 : InstanceList T) (x : T)
    (h : l.add x = (.ok (), l2)) : l2 = ⟨l.instances ++ [x]⟩ := by
  rcases add_cases l x with hc | ⟨e2, hc⟩
  · rw [hc] at h
    simp only [Prod.mk.injEq] at h
    exact h.2.symm
  · rw [hc] at h; simp at h

theorem add_ok_ordered {T : Type} [Instanced T] (l l2 : InstanceList T) (x : T)
    (h : l.add x = (.ok (), l2)) (last : T) (hlast : l.latest = some last) :
    (Instanced.get_instance last).datetime ≤ (Instanced.get_instance x).datetime := by
  by_contra hlt
  rw [add_rejects_earlier l x last hlast (Nat.not_le.mp hlt)] at h
  simp at h

theorem add_ok_sorted {T : Type} [Instanced T] (l l2 : InstanceList T) (x : T)
    (hs : l.SortedByDatetime) (h : l.add x = (.ok (), l2)) : l2.SortedByDatetime := by
  rw [add_ok_state l l2 x h]
  rw [InstanceList.SortedByDatetime]
  apply List.pairwise_append.mpr
  refine ⟨hs, by simp, ?_⟩
  intro a ha b hb
  rw [List.mem_singleton.mp hb]
  rcases hlast : l.instances.getLast? with _ | last
  · rw [List.getLast?_eq_none_iff.mp hlast] at ha
    simp at ha
  · have h1 : tsLe a last := pairwise_le_getLast l.instances last hs hlast a ha
    have h2 := add_ok_ordered l l2 x h last hlast
    exact le_trans h1 h2

theorem reachable_sorted {T : Type} [Instanced T] (l : InstanceList T)
    (h : l.Reachable) : l.SortedByDatetime := by
  induction h with
  | of_new values => exact new_sorted values
  | of_add l0 x0 l2 hr hadd ih => exact add_ok_sorted l0 l2 x0 ih hadd

/-! ### Concrete sample values used by the witnesses -/

/-- A concrete payload used to instantiate the generic container in witnesses. -/
def ti (ts : Nat) (k : InstanceType) : TestInstance :=
  ⟨⟨ts, "", k, Version.new 0 1 0⟩⟩

/-- A concrete file name with a positive UTC offset, exercising the
placeholder substitution. -/
def sampleFileName : FileName :=
  ⟨⟨2024, 7, 30, 0, 56, 25, 31870, false, 5, 30⟩, ⟨1, 2, 3⟩⟩

/-! ### Claim theorems -/

/-- Claim C1: FileName round-trip — for every representable (timestamp,
version) pair, decoding the encoded token recovers the pair:
`FileName.from_string (f.to_string) = .ok f` for every valid `FileName f`,
with the timestamp recovered exactly at the microsecond granularity the
token carries. -/
theorem C1_fileName_round_trip (f : FileName) (hz : f.datetime.Valid) (hv : f.version.Valid) :
    FileName.from_string f.to_string = .ok f :=
  fileName_round_trip hz hv

theorem C1_witness :
    sampleFileName.datetime.Valid ∧ sampleFileName.version.Valid ∧
    FileName.from_string sampleFileName.to_string = .ok sampleFileName :=
  ⟨by decide, by decide, C1_fileName_round_trip sampleFileName (by decide) (by decide)⟩

/-- Claim C2: monotonic-ordering rejection with atomicity — appending a
payload whose timestamp is strictly earlier than the timestamp of the latest entry returns `DatetimeIncorrectlyOrdered` and leaves the list
unchanged, and in general `add` either fully succeeds (appending exactly
one entry) or leaves the list unchanged. -/
theorem C2_monotonic_rejection {T : Type} [Instanced T] :
    (∀ (l : InstanceList T) (x last : T), l.latest = some last →
      (Instanced.get_instance x).datetime < (Instanced.get_instance last).datetime →
      l.add x = (.error .DatetimeIncorrectlyOrdered, l)) ∧
    (∀ (l l2 : InstanceList T) (x : T) (e : InstanceError),
      l.add x = (.error e, l2) → l2 = l) ∧
    (∀ (l l2 : InstanceList T) (x : T),
      l.add x = (.ok (), l2) → l2 = ⟨l.instances ++ [x]⟩) :=
  ⟨add_rejects_earlier, add_error_state, add_ok_state⟩

theorem C2_witness :
    ((⟨[ti 5 .Creation]⟩ : InstanceList TestInstance).latest = some (ti 5 .Creation)) ∧
    (Instanced.get_instance (ti 3 .Update)).datetime
      < (Instanced.get_instance (ti 5 .Creation)).datetime ∧
    (⟨[ti 5 .Creation]⟩ : InstanceList TestInstance).add (ti 3 .Update)
      = (.error .DatetimeIncorrectlyOrdered, ⟨[ti 5 .Creation]⟩) :=
  ⟨rfl, by decide, C2_monotonic_rejection.1 ⟨[ti 5 .Creation]⟩ (ti 3 .Update)
    (ti 5 .Creation) rfl (by decide)⟩

/-- Claim C3: deletion lock — when the kind of the latest entry is Deletion,
adding a non-Restoration payload with a timestamp not earlier than the
latest fails with `CannotAddToDeletedInstanceList`, adding a Restoration
payload succeeds and makes `is_deleted` false; `is_deleted` is true iff the
kind of the latest entry is Deletion, and an empty list is never deleted. -/
theorem C3_deletion_lock {T : Type} [Instanced T] :
    (∀ (l : InstanceList T) (x last : T), l.latest = some last →
      (Instanced.get_instance last).is_type_of .Deletion = true →
      (Instanced.get_instance x).is_type_of .Restoration = false →
      (Instanced.get_instance last).datetime ≤ (Instanced.get_instance x).datetime →
      l.add x = (.error .CannotAddToDeletedInstanceList, l)) ∧
    (∀ (l : InstanceList T) (x last : T), l.latest = some last →
      (Instanced.get_instance last).is_type_of .Deletion = true →
      (Instanced.get_instance x).is_type_of .Restoration = true →
      (Instanced.get_instance last).datetime ≤ (Instanced.get_instance x).datetime →
      l.add x = (.ok (), ⟨l.instances ++ [x]⟩) ∧
        (InstanceList.mk (l.instances ++ [x]) : InstanceList T).is_deleted = false) ∧
    (∀ l : InstanceList T, l.is_deleted = true ↔
      ∃ last, l.latest = some last ∧
        (Instanced.get_instance last).instance_type = .Deletion) ∧
    (∀ l : InstanceList T, l.instances = [] → l.is_deleted = false) := by
  refine ⟨add_rejects_deleted, fun l x last hlast hdel hres hge => ?_, fun l => ?_,
    fun l h => ?_⟩
  · have hadd := add_succeeds l x
      (fun last2 hl2 => by
        rw [hlast] at hl2
        injection hl2 with he
        rw [← he]
        exact hge)
      (Or.inr hres)
    refine ⟨hadd, ?_⟩
    have hl2 : (InstanceList.mk (l.instances ++ [x]) : InstanceList T).latest = some x :=
      List.getLast?_concat _
    rw [is_deleted_latest _ x hl2]
    have hx : (Instanced.get_instance x).instance_type = .Restoration := by
      simpa [Instance.is_type_of] using hres
    rw [Instance.is_type_of, hx]
    rfl
  · rcases hl : l.latest with _ | last
    · rw [is_deleted_none l hl]
      simp [hl]
    · rw [is_deleted_latest l last hl]
      simp [hl, Instance.is_type_of]
  · have hnone : l.latest = none := by
      rw [InstanceList.latest, h]
      rfl
    exact is_deleted_none l hnone

theorem C3_witness :
    ((⟨[ti 5 .Deletion]⟩ : InstanceList TestInstance).add (ti 6 .Restoration)
      = (.ok (), ⟨[ti 5 .Deletion, ti 6 .Restoration]⟩)) ∧
    (⟨[ti 5 .Deletion, ti 6 .Restoration]⟩ : InstanceList TestInstance).is_deleted = false := by
  have h := C3_deletion_lock.2.1 (⟨[ti 5 .Deletion]⟩ : InstanceList TestInstance)
    (ti 6 .Restoration) (ti 5 .Deletion) rfl (by decide) (by decide) (by decide)
  exact ⟨h.1, h.2⟩

/-- Claim C4: instance lifecycle transitions — `create_initial_instance`
yields kind Creation with version `(0,0,0).create_child_version level`,
`create_child_instance` yields kind Update with the parent-derived version,
`create_deletion_instance` and `create_restored_instance` yield kinds
Deletion and Restoration with a Major bump and default notes; concretely
initial Minor gives 0.1.0, then Patch child 0.1.1, then deletion 1.0.0,
then restoration 2.0.0. -/
theorem C4_instance_lifecycle :
    (∀ (now : Nat) (lvl : VersionLevel),
      (Instance.create_initial_instance now lvl).instance_type = .Creation ∧
      (Instance.create_initial_instance now lvl).version
        = (Version.new 0 0 0).create_child_version lvl ∧
      (Instance.create_initial_instance now lvl).change_note = "Instance Created") ∧
    (∀ (p : Instance) (now : Nat) (note : String) (lvl : VersionLevel),
      (p.create_child_instance now note lvl).instance_type = .Update ∧
      (p.create_child_instance now note lvl).version
        = p.version.create_child_version lvl) ∧
    (∀ (p : Instance) (now : Nat) (note : Option String),
      (p.create_deletion_instance now note).instance_type = .Deletion ∧
      (p.create_deletion_instance now note).version
        = p.version.create_child_version .Major ∧
      (p.create_deletion_instance now none).change_note = "Instance Deleted") ∧
    (∀ (p : Instance) (now : Nat) (note : Option String),
      (p.create_restored_instance now note).instance_type = .Restoration ∧
      (p.create_restored_instance now note).version
        = p.version.create_child_version .Major ∧
      (p.create_restored_instance now none).change_note = "Instance restored") ∧
    (Instance.create_initial_instance 0 .Minor).version = Version.new 0 1 0 ∧
    ((Instance.create_initial_instance 0 .Minor).create_child_instance 1 "n" .Patch).version
      = Version.new 0 1 1 ∧
    (((Instance.create_initial_instance 0 .Minor).create_child_instance 1 "n" .Patch).create_deletion_instance
      2 none).version = Version.new 1 0 0 ∧
    ((((Instance.create_initial_instance 0 .Minor).create_child_instance 1 "n" .Patch).create_deletion_instance
      2 none).create_restored_instance 3 none).version = Version.new 2 0 0 :=
  ⟨fun _ _ => ⟨rfl, rfl, rfl⟩, fun _ _ _ _ => ⟨rfl, rfl⟩, fun _ _ _ => ⟨rfl, rfl, rfl⟩,
    fun _ _ _ => ⟨rfl, rfl, rfl⟩, by decide, by decide, by decide, by decide⟩

/-- Claim C5 (amended): version derivation — for every Version whose
targeted component is below the u16 maximum 65535, `create_child_version`
with Major increments major and zeroes minor and patch, Minor increments
minor and zeroes patch, Patch increments only patch; concretely (1,2,3)
derives (2,0,0), (1,3,0) and (1,2,4).  (At a component equal to 65535 the
unchecked u16 addition wraps, so the unrestricted claim fails; the model is
a pure function, so the receiver is never mutated.) -/
theorem C5_version_derivation :
    (∀ v : Version, v.major < 65535 →
      v.create_child_version .Major = Version.new (v.major + 1) 0 0) ∧
    (∀ v : Version, v.minor < 65535 →
      v.create_child_version .Minor = Version.new v.major (v.minor + 1) 0) ∧
    (∀ v : Version, v.patch < 65535 →
      v.create_child_version .Patch = Version.new v.major v.minor (v.patch + 1)) ∧
    (Version.new 1 2 3).create_child_version .Major = Version.new 2 0 0 ∧
    (Version.new 1 2 3).create_child_version .Minor = Version.new 1 3 0 ∧
    (Version.new 1 2 3).create_child_version .Patch = Version.new 1 2 4 := by
  refine ⟨fun v h => ?_, fun v h => ?_, fun v h => ?_, by decide, by decide, by decide⟩
  · simp only [Version.create_child_version, Version.increment, Version.new]
    rw [Nat.mod_eq_of_lt (by omega)]
  · simp only [Version.create_child_version, Version.increment, Version.new]
    rw [Nat.mod_eq_of_lt (by omega)]
  · simp only [Version.create_child_version, Version.increment, Version.new]
    rw [Nat.mod_eq_of_lt (by omega)]

/-- Claim C5 counterexample: at major = 65535 the derivation does not
increment the major component — the unchecked u16 addition wraps to 0. -/
theorem C5_counterexample :
    (Version.new 65535 2 3).create_child_version .Major = Version.new 0 0 0 ∧
    (Version.new 65535 2 3).create_child_version .Major ≠ Version.new (65535 + 1) 0 0 := by
  decide

theorem C5_witness :
    (2 : Nat) < 65535 ∧ (Version.new 2 5 7).create_child_version .Major = Version.new 3 0 0 :=
  ⟨by decide, C5_version_derivation.1 (Version.new 2 5 7) (by decide)⟩

/-- Claim C6: ordering invariant — construction sorts any input by
ascending instance datetime (no rejection of out-of-order input), so
`earliest`/`latest` are minimum/maximum-timestamp entries regardless of
input order; every successful `add` preserves sortedness; hence every
reachable list is sorted. -/
theorem C6_sorted_invariant {T : Type} [Instanced T] :
    (∀ values : List T, (InstanceList.new values).SortedByDatetime) ∧
    (∀ (values : List T) (e : T), (InstanceList.new values).earliest = some e →
      ∀ x ∈ values, tsLe e x) ∧
    (∀ (values : List T) (a : T), (InstanceList.new values).latest = some a →
      ∀ x ∈ values, tsLe x a) ∧
    (∀ (l l2 : InstanceList T) (x : T), l.SortedByDatetime →
      l.add x = (.ok (), l2) → l2.SortedByDatetime) ∧
    (∀ l : InstanceList T, l.Reachable → l.SortedByDatetime) := by
  refine ⟨new_sorted, fun values e he x hx => ?_, fun values a ha x hx => ?_,
    add_ok_sorted, reachable_sorted⟩
  · exact pairwise_head_le _ e (new_sorted values) he x (List.mem_mergeSort.mpr hx)
  · exact pairwise_le_getLast _ a (new_sorted values) ha x (List.mem_mergeSort.mpr hx)

theorem C6_witness :
    (InstanceList.new [ti 9 .Creation] : InstanceList TestInstance).SortedByDatetime ∧
    tsLe (ti 9 .Creation) (ti 9 .Creation) :=
  ⟨C6_sorted_invariant.2.2.2.2 _ (InstanceList.Reachable.of_new _),
   C6_sorted_invariant.2.1 [ti 9 .Creation] (ti 9 .Creation)
     (by simp [InstanceList.new, InstanceList.earliest]) (ti 9 .Creation) (by simp)⟩

/-- Claim C7 (amended): FileName decode error behaviour — the token is
split at every underscore and exactly two parts (possibly empty) are
required, otherwise a `FilenameError` with the Too-many-parts message is
returned; if the timestamp portion (after substituting the placeholder
back) does not match the fixed pattern, a `FileUrlDateTime` error is
returned; but a malformed version portion makes `from_string` panic (the
source unwraps the version parse) instead of returning a typed error. -/
theorem C7_decode_errors :
    (∀ s : List Char, s.count '_' ≠ 1 →
      FileName.from_string s
        = .err (.FilenameError (("Too many parts in filename: ").toList ++ s))) ∧
    (∀ (s p0 p1 : List Char), splitOnChar '_' s = [p0, p1] →
      Zoned.strptimeFileName (replacePlusBack p0) = none →
      FileName.from_string s = .err .FileUrlDateTime) ∧
    (∀ (s p0 p1 : List Char) (z : Zoned), splitOnChar '_' s = [p0, p1] →
      Zoned.strptimeFileName (replacePlusBack p0) = some z →
      (∀ v : Version, Version.from_string p1 ≠ .ok v) →
      FileName.from_string s = .panicked) := by
  refine ⟨fun s hcount => ?_, fun s p0 p1 hsplit hstrp => ?_,
    fun s p0 p1 z hsplit hstrp hver => ?_⟩
  · have hlen : (splitOnChar '_' s).length ≠ 2 := by
      rw [length_splitOnChar]
      omega
    rcases hp : splitOnChar '_' s with _ | ⟨a, _ | ⟨b, _ | ⟨c, t⟩⟩⟩
    · exact absurd hp (splitOnChar_ne_nil _ s)
    · simp only [FileName.from_string, hp]
    · rw [hp] at hlen
      simp at hlen
    · simp only [FileName.from_string, hp]
  · simp only [FileName.from_string, hsplit, hstrp]
  · simp only [FileName.from_string, hsplit, hstrp]
    rcases hv : Version.from_string p1 with e | v
    · rfl
    · exact absurd hv (hver v)

/-- Claim C7 counterexample: on a token whose timestamp part is valid but
whose version part is malformed, `from_string` panics (it does not return
an invalid-version error). -/
theorem C7_counterexample :
    FileName.from_string
      ['2', '0', '2', '4', '-', '0', '7', '-', '3', '0', '-', '0', '0', '-', '5', '6',
       '-', '2', '5', '-', '0', '3', '1', '8', '7', '0', '-', '0', '6', '0', '0', '_', 'x']
      = .panicked := by
  decide

theorem C7_witness :
    (['a'] : List Char).count '_' ≠ 1 ∧
    FileName.from_string ['a']
      = .err (.FilenameError (("Too many parts in filename: ").toList ++ ['a'])) :=
  ⟨by decide, C7_decode_errors.1 ['a'] (by decide)⟩

/-- Claim C8: version text round-trip — for every u16-ranged Version,
parsing the dotted rendering and parsing the file-safe dashed rendering
both recover the Version exactly. -/
theorem C8_version_text_round_trip (v : Version) (h : v.Valid) :
    Version.from_string v.to_string = .ok v ∧
    Version.from_string v.file_safe_string = .ok v :=
  ⟨from_string_to_string h, from_string_file_safe h⟩

theorem C8_witness :
    (Version.new 10 0 255).Valid ∧
    Version.from_string (Version.new 10 0 255).to_string = .ok (Version.new 10 0 255) ∧
    Version.from_string (Version.new 10 0 255).file_safe_string = .ok (Version.new 10 0 255) :=
  ⟨by decide, (C8_version_text_round_trip (Version.new 10 0 255) (by decide)).1,
    (C8_version_text_round_trip (Version.new 10 0 255) (by decide)).2⟩

/-- Claim C9: u16-bounded version arithmetic — `increment` and
`create_child_version` do unchecked u16 addition, so at 65535 the targeted
component wraps modulo 2^16 (release-build semantics) instead of
incrementing; the derivation behaves as a plain increment exactly when the
targeted component is below 65535. -/
theorem C9_u16_overflow :
    ((Version.new 65535 2 3).create_child_version .Major = Version.new 0 0 0) ∧
    ((Version.new 1 65535 4).create_child_version .Minor = Version.new 1 0 0) ∧
    ((Version.new 1 2 65535).create_child_version .Patch = Version.new 1 2 0) ∧
    (∀ v : Version, v.major < 65535 → (v.create_child_version .Major).major = v.major + 1) ∧
    (∀ v : Version, v.minor < 65535 → (v.create_child_version .Minor).minor = v.minor + 1) ∧
    (∀ v : Version, v.patch < 65535 → (v.create_child_version .Patch).patch = v.patch + 1) := by
  refine ⟨by decide, by decide, by decide, fun v h => ?_, fun v h => ?_, fun v h => ?_⟩
  · simp only [Version.create_child_version, Version.increment]
    exact Nat.mod_eq_of_lt (by omega)
  · simp only [Version.create_child_version, Version.increment]
    exact Nat.mod_eq_of_lt (by omega)
  · simp only [Version.create_child_version, Version.increment]
    exact Nat.mod_eq_of_lt (by omega)

theorem C9_witness :
    (7 : Nat) < 65535 ∧ ((Version.new 7 1 1).create_child_version .Major).major = 7 + 1 :=
  ⟨by decide, C9_u16_overflow.2.2.2.1 (Version.new 7 1 1) (by decide)⟩

/-- Claim C10: the append check is kind-agnostic — when the list is empty,
or its latest entry is not a Deletion and the timestamp of the new payload is
not earlier, `add` succeeds for a payload of any kind (a second Creation, a
Restoration without a Deletion, ...); a payload whose timestamp equals the
latest timestamp always passes the ordering check. -/
theorem C10_add_kind_agnostic {T : Type} [Instanced T] :
    (∀ (l : InstanceList T) (x : T),
      (l.latest = none ∨ ∃ last, l.latest = some last ∧
        (Instanced.get_instance last).is_type_of .Deletion = false ∧
        (Instanced.get_instance last).datetime ≤ (Instanced.get_instance x).datetime) →
      l.add x = (.ok (), ⟨l.instances ++ [x]⟩)) ∧
    (∀ (l : InstanceList T) (x last : T), l.latest = some last →
      (Instanced.get_instance x).datetime = (Instanced.get_instance last).datetime →
      (l.add x).1 ≠ .error .DatetimeIncorrectlyOrdered) := by
  refine ⟨fun l x hyp => ?_, fun l x last hlast heq => ?_⟩
  · rcases hyp with hnone | ⟨last, hlast, hkind, hge⟩
    · exact add_succeeds l x
        (fun last2 hl2 => by rw [hnone] at hl2; cases hl2)
        (Or.inl (is_deleted_none l hnone))
    · exact add_succeeds l x
        (fun last2 hl2 => by
          rw [hlast] at hl2
          injection hl2 with he
          rw [← he]
          exact hge)
        (Or.inl (by rw [is_deleted_latest l last hlast]; exact hkind))
  · simp only [InstanceList.add, hlast]
    rw [if_neg (by rw [heq]; exact lt_irrefl _)]
    split_ifs with h2
    · simp
    · simp

theorem C10_witness :
    (⟨[ti 5 .Creation]⟩ : InstanceList TestInstance).add (ti 5 .Creation)
      = (.ok (), ⟨[ti 5 .Creation, ti 5 .Creation]⟩) :=
  C10_add_kind_agnostic.1 (⟨[ti 5 .Creation]⟩ : InstanceList TestInstance) (ti 5 .Creation)
    (Or.inr ⟨ti 5 .Creation, rfl, by decide, by decide⟩)

end Terfer
